import Mathlib

/-!
# grep-stackdump: segmentation of a thread dump and the filter/report loop

A shallow embedding of `main.go`.

* A Go `string` is a finite sequence of bytes.  It is represented by a list of
  characters, one per byte (`Str`).  Every byte the program inspects (space,
  tab, newline, the double quote and the letters of `nid=` / `tid=`) is ASCII.
* A Go run-time panic (index or slice bound out of range) is an explicit
  outcome: functions that index or slice return `Except Panic _`.
* `parseThread` returns `(*Thread, error)`; its two `return` statements give
  either a record or an error, which is the inner `Except GoError Thread`.
* `ParseThreads` returns `([]*Thread, error)`; the pair is kept as a pair
  (`List Thread × Option GoError`).
* A compiled regular expression is used only through `MatchString`; it is a
  parameter `Str → Bool`.
-/

namespace GrepStackdump

/-- A Go string: a sequence of bytes. -/
abbrev Str := List Char

/-- The byte of a double quote. -/
def dquote : Char := Char.ofNat 34

/-- The byte of a newline. -/
def newline : Char := Char.ofNat 10

/-- The byte of a space. -/
def space : Char := Char.ofNat 32

/-- The byte of a horizontal tab. -/
def tab : Char := Char.ofNat 9

/-- Go run-time panics reachable from indexing and slicing. -/
inductive Panic where
  | indexOutOfRange
  | sliceBoundsOutOfRange
  deriving DecidableEq, Repr

deriving instance DecidableEq for Except

/-- A Go `error` value made by `errors.New`. -/
structure GoError where
  msg : String
  deriving DecidableEq, Repr

/-- The record `type Thread struct { Header, Name, Stack string }`. -/
structure Thread where
  Header : Str
  Name : Str
  Stack : Str
  deriving DecidableEq, Repr

/-! ## The `strings` functions the program calls -/

/-- The call `strings.Split(s, "\n")`: the pieces between newline bytes;
one piece more than there are newlines. -/
def split : Str → List Str
  | [] => [[]]
  | c :: cs =>
    if c = newline then [] :: split cs
    else
      match split cs with
      | [] => [[c]]
      | l :: ls => (c :: l) :: ls

/-- The call `strings.Join(elems, "\n")`. -/
def join : List Str → Str
  | [] => []
  | [l] => l
  | l :: m :: ls => l ++ newline :: join (m :: ls)

/-- The call `strings.IndexByte(s, c)`: index of the first `c`, or `-1`. -/
def indexByte : Str → Char → Int
  | [], _ => -1
  | x :: xs, c =>
    if x = c then 0
    else
      let r := indexByte xs c
      if r < 0 then -1 else r + 1

/-- The call `strings.LastIndexByte(s, c)`: index of the last `c`, or `-1`. -/
def lastIndexByte : Str → Char → Int
  | [], _ => -1
  | x :: xs, c =>
    let r := lastIndexByte xs c
    if 0 ≤ r then r + 1
    else if x = c then 0 else -1

/-- Whether `sub` is an initial segment of `s`. -/
def startsWith : Str → Str → Bool
  | _, [] => true
  | [], _ :: _ => false
  | x :: xs, y :: ys => x == y && startsWith xs ys

/-- The call `strings.Contains(s, sub)`: `sub` occurs at some offset of `s`. -/
def contains : Str → Str → Bool
  | [], sub => startsWith [] sub
  | x :: xs, sub => startsWith (x :: xs) sub || contains xs sub

/-- The slice expression `s[lo:hi]`, which panics unless
`0 ≤ lo ≤ hi ≤ len(s)`. -/
def slice (s : Str) (lo hi : Int) : Except Panic Str :=
  if 0 ≤ lo ∧ lo ≤ hi ∧ hi ≤ (s.length : Int) then
    .ok ((s.drop lo.toNat).take (hi.toNat - lo.toNat))
  else .error .sliceBoundsOutOfRange

/-! ## Segmentation -/

/-- The text `nid=`. -/
def nidTag : Str := "nid=".toList

/-- The text `tid=`. -/
def tidTag : Str := "tid=".toList

/-- The error of `parseThread`. -/
def noThreadName : GoError := ⟨"no thread name found"⟩

/-- The method `parseThread` (main.go 38-57). -/
def parseThread (lines : List Str) : Except Panic (Except GoError Thread) :=
  match lines with
  | [] => .error .indexOutOfRange
  | header :: rest =>
    let stack := join rest
    let startName := indexByte header dquote
    let endName := lastIndexByte header dquote
    if startName < 0 ∨ endName ≤ startName then
      .ok (.error noThreadName)
    else
      match slice header (startName + 1) endName with
      | .error p => .error p
      | .ok name => .ok (.ok { Header := header, Name := name, Stack := stack })

/-- The test `len(l) > 0 && (l[0] == ' ' || l[0] == '\t')` of main.go 63. -/
def isContinuation (l : Str) : Bool :=
  match l with
  | [] => false
  | c :: _ => c == space || c == tab

/-- The test `len(l) > 0 && strings.Contains(l, "nid=") &&
strings.Contains(l, "tid=")` of main.go 76. -/
def hasIds (l : Str) : Bool :=
  decide (0 < l.length) && contains l nidTag && contains l tidTag

/-- The body of the `for` loop of `ParseThreads` with its closing part
(main.go 62-88), on the remaining lines, the records so far (`threads`) and
the accumulator (`thread`). -/
def parseLoop : List Str → List Thread → List Str →
    Except Panic (List Thread × Option GoError)
  | [], threads, thread =>
    if 0 < thread.length then
      match parseThread thread with
      | .error p => .error p
      | .ok (.error err) => .ok ([], some err)
      | .ok (.ok parsed) => .ok (threads ++ [parsed], none)
    else .ok (threads, none)
  | l :: ls, threads, thread =>
    if isContinuation l then
      if 0 < thread.length then parseLoop ls threads (thread ++ [l])
      else parseLoop ls threads thread
    else
      if 0 < thread.length then
        match parseThread thread with
        | .error p => .error p
        | .ok (.error err) => .ok ([], some err)
        | .ok (.ok parsed) =>
          if hasIds l then parseLoop ls (threads ++ [parsed]) [l]
          else parseLoop ls (threads ++ [parsed]) []
      else
        if hasIds l then parseLoop ls threads (thread ++ [l])
        else parseLoop ls threads thread

/-- The method `ParseThreads` (main.go 59-89) on the dump text. -/
def ParseThreads (text : Str) : Except Panic (List Thread × Option GoError) :=
  parseLoop (split text) [] []

/-! ## The filter and report loop of `main` -/

/-- The display text of a record (main.go 141-144). -/
def displayText (t : Thread) : Str :=
  if 0 < t.Stack.length then t.Header ++ newline :: t.Stack else t.Header

/-- The candidate matched against the pattern (main.go 146-151). -/
def matchesThread (pattern : Str → Bool) (matchName : Bool) (t : Thread) : Bool :=
  if matchName then pattern t.Name else pattern (displayText t)

/-- The state of the report loop: `count`, `first` and what was written to
standard output. -/
structure LoopState where
  count : Nat
  first : Bool
  out : Str
  deriving DecidableEq, Repr

/-- One iteration of the report loop (main.go 140-165). -/
def reportStep (pattern : Str → Bool) (invert countOnly matchName : Bool)
    (st : LoopState) (t : Thread) : LoopState :=
  let text := displayText t
  let matched := matchesThread pattern matchName t
  if matched != invert then
    if countOnly then { st with count := st.count + 1 }
    else
      let out1 := if st.first then st.out else st.out ++ [newline]
      { st with first := false, out := out1 ++ text ++ [newline] }
  else st

/-- The report loop and the final count line (main.go 138-168): what is
written to standard output for the records `threads`. -/
def report (pattern : Str → Bool) (invert countOnly matchName : Bool)
    (threads : List Thread) : Str :=
  let st := threads.foldl (reportStep pattern invert countOnly matchName)
    { count := 0, first := true, out := [] }
  if countOnly then st.out ++ (Nat.repr st.count).toList ++ [newline] else st.out

/-- The outcome of a run of `main` after the flags are read: standard output
and exit status, or a panic. -/
structure RunResult where
  stdout : Str
  exitCode : Nat
  deriving DecidableEq, Repr

/-- The part of `main` after the pattern is compiled (main.go 131-168): on a
segmentation error `log.Fatalf` exits with status 1 and nothing was printed. -/
def run (pattern : Str → Bool) (invert countOnly matchName : Bool)
    (stdin : Str) : Except Panic RunResult :=
  match ParseThreads stdin with
  | .error p => .error p
  | .ok (_, some _) => .ok { stdout := [], exitCode := 1 }
  | .ok (threads, none) =>
    .ok { stdout := report pattern invert countOnly matchName threads, exitCode := 0 }

/-! ## The words of the specification -/

/-- A thread header line as the specification describes it: non-empty, not
beginning with a space or a tab, and containing both `nid=` and `tid=`. -/
def IsHeaderLine (l : Str) : Prop :=
  l ≠ [] ∧ l.head? ≠ some space ∧ l.head? ≠ some tab ∧ nidTag <:+: l ∧ tidTag <:+: l

instance : DecidablePred IsHeaderLine := fun l => by
  unfold IsHeaderLine; infer_instance

/-- A continuation line as the specification describes it: non-empty and
beginning with a space or a tab. -/
def IsContinuationLine (l : Str) : Prop :=
  l ≠ [] ∧ (l.head? = some space ∨ l.head? = some tab)

instance : DecidablePred IsContinuationLine := fun l => by
  unfold IsContinuationLine; infer_instance

/-! ## The loop as a sequence of blocks -/

/-- The blocks of a line sequence: every line on which the loop opens an
accumulator, with the continuation lines that follow it directly. -/
def headerBlocks : List Str → List (Str × List Str)
  | [] => []
  | l :: ls =>
    if !isContinuation l && hasIds l then
      (l, ls.takeWhile isContinuation) :: headerBlocks ls
    else headerBlocks ls

/-- The records so far followed by the blocks still to be closed, each
closed by `parseThread` in turn; the first error ends the run. -/
def finish : List Thread → List (Str × List Str) →
    Except Panic (List Thread × Option GoError)
  | threads, [] => .ok (threads, none)
  | threads, b :: bs =>
    match parseThread (b.1 :: b.2) with
    | .error p => .error p
    | .ok (.error err) => .ok ([], some err)
    | .ok (.ok parsed) => finish (threads ++ [parsed]) bs

/-- The record `t` is what `parseThread` makes of the block `b`. -/
def Closes (t : Thread) (b : Str × List Str) : Prop :=
  t.Header = b.1 ∧ t.Stack = join b.2 ∧
    ∃ pre post, b.1 = pre ++ dquote :: t.Name ++ dquote :: post ∧ dquote ∉ pre ∧ dquote ∉ post

/-! ## Sample inputs -/

/-- The header line `"Thread-1" nid=0x1 tid=0x2 runnable`. -/
def thread1Header : Str := "\"Thread-1\" nid=0x1 tid=0x2 runnable".toList

/-- A dump whose only header line has no quoted name. -/
def bogusDump : Str := "bogus nid=1 tid=2\n  at foo()".toList

/-- A dump of two threads, the first with one stack line. -/
def sampleDump : Str :=
  "\"main\" tid=0x1 nid=0x2 runnable\n  at A.b()\n\"GC-thread\" tid=0x3 nid=0x4 waiting".toList

/-- The record of the first thread of `sampleDump`. -/
def mainThread : Thread :=
  ⟨"\"main\" tid=0x1 nid=0x2 runnable".toList, "main".toList, "  at A.b()".toList⟩

/-- The record of the second thread of `sampleDump`. -/
def gcThread : Thread :=
  ⟨"\"GC-thread\" tid=0x3 nid=0x4 waiting".toList, "GC-thread".toList, []⟩

/-- A dump in which a well-formed thread precedes a header without a name. -/
def brokenDump : Str := "\"main\" nid=1 tid=2\n  at A.b()\nbogus nid=1 tid=2".toList

/-- A dump whose thread name is itself written in double quotes. -/
def quotedNameDump : Str := "\"\"foo\"\" nid=1 tid=2".toList

/-- A text without thread headers. -/
def bannerText : Str := "Full thread dump\n\n  at A.b()".toList

/-- A block of two continuation lines. -/
def strayLines : Str := "  at A.b()\n\tat C.d()".toList

/-- The header line of the second thread of `sampleDump`. -/
def gcHeader : Str := "\"GC-thread\" tid=0x3 nid=0x4 waiting".toList

/-! ## The filter in the words of the specification -/

/-- The candidate text of the specification: the name alone when name-only
matching is set, the display text otherwise. -/
def candidate (matchName : Bool) (t : Thread) : Str :=
  if matchName then t.Name else displayText t

/-- The matching rule of the specification: a record is selected when
`pattern.matches(candidate) != invert`. -/
def Selected (pattern : Str → Bool) (invert matchName : Bool) (t : Thread) : Bool :=
  pattern (candidate matchName t) != invert

/-- The list-mode output of the specification for the selected records: their
display texts joined by an empty line and closed by a newline, or nothing when
no record is selected. -/
def listText (sel : List Thread) : Str :=
  match sel with
  | [] => []
  | _ :: _ => List.intercalate [newline, newline] (sel.map displayText) ++ [newline]

/-- The count-mode output of the specification: the decimal count and a
newline. -/
def countText (n : Nat) : Str := (Nat.repr n).toList ++ [newline]

/-- A pattern that matches exactly the strings containing `main`. -/
def containsMain (s : Str) : Bool := contains s "main".toList

/-! ## Records as lines -/

/-- The lines of the stack of a record: none for an empty stack. -/
def stackLines (t : Thread) : List Str :=
  if t.Stack = [] then [] else split t.Stack

/-- The lines of the display text of a record: the header, then the stack
lines. -/
def recordLines (t : Thread) : List Str := t.Header :: stackLines t

/-- The lines of the list-mode output for the records `sel`: the lines of each
record followed by one empty line. -/
def outLines : List Thread → List Str
  | [] => []
  | t :: ts => recordLines t ++ [] :: outLines ts

/-- The record `t` is what `parseThread` returns on the block `b`. -/
def Parses (t : Thread) (b : Str × List Str) : Prop :=
  parseThread (b.1 :: b.2) = .ok (.ok t)

/-- A record as `ParseThreads` makes them: the header is a header line
without newline, the stack lines are continuation lines, and `parseThread`
on the record's lines gives the record back. -/
def WellFormed (t : Thread) : Prop :=
  IsHeaderLine t.Header ∧ newline ∉ t.Header ∧
    (∀ l ∈ stackLines t, IsContinuationLine l) ∧
    parseThread (recordLines t) = .ok (.ok t)

/-! ## Facts about the string functions -/

theorem startsWith_iff (s sub : Str) : startsWith s sub = true ↔ sub <+: s := by
  induction s generalizing sub with
  | nil => cases sub <;> simp [startsWith]
  | cons x xs ih =>
    cases sub with
    | nil => simp [startsWith]
    | cons y ys =>
      simp only [startsWith, Bool.and_eq_true, beq_iff_eq, ih, List.cons_prefix_cons]
      constructor
      · rintro ⟨rfl, h⟩; exact ⟨rfl, h⟩
      · rintro ⟨rfl, h⟩; exact ⟨rfl, h⟩

theorem contains_iff (s sub : Str) : contains s sub = true ↔ sub <:+: s := by
  induction s with
  | nil =>
    simp [contains, startsWith_iff]
  | cons x xs ih =>
    simp [contains, startsWith_iff, ih, List.infix_cons_iff]

theorem isContinuation_iff (l : Str) : isContinuation l = true ↔ IsContinuationLine l := by
  cases l <;> simp [isContinuation, IsContinuationLine]

theorem hasIds_iff (l : Str) :
    hasIds l = true ↔ l ≠ [] ∧ nidTag <:+: l ∧ tidTag <:+: l := by
  simp [hasIds, contains_iff, List.length_pos, and_assoc]

theorem isHeaderLine_iff (l : Str) :
    IsHeaderLine l ↔ isContinuation l = false ∧ hasIds l = true := by
  rw [hasIds_iff]
  cases l with
  | nil => simp [IsHeaderLine]
  | cons c cs =>
    simp [IsHeaderLine, isContinuation, and_assoc]

theorem split_ne_nil (s : Str) : split s ≠ [] := by
  cases s with
  | nil => simp [split]
  | cons c cs =>
    simp only [split]
    split_ifs
    · simp
    · cases split cs <;> simp

theorem split_append_newline (a b : Str) :
    split (a ++ newline :: b) = split a ++ split b := by
  induction a with
  | nil => simp [split]
  | cons c cs ih =>
    by_cases hc : c = newline
    · simp [split, hc, ih]
    · have hne := split_ne_nil cs
      cases h : split cs with
      | nil => exact absurd h hne
      | cons l ls => simp [split, hc, ih, h]

theorem split_of_no_newline (s : Str) (h : newline ∉ s) : split s = [s] := by
  induction s with
  | nil => simp [split]
  | cons c cs ih =>
    simp only [List.mem_cons, not_or] at h
    have hc : c ≠ newline := fun e => h.1 e.symm
    simp [split, hc, ih h.2]

theorem join_split (s : Str) : join (split s) = s := by
  induction s with
  | nil => rfl
  | cons c cs ih =>
    have hne := split_ne_nil cs
    cases h : split cs with
    | nil => exact absurd h hne
    | cons l ls =>
      rw [h] at ih
      by_cases hc : c = newline
      · simp [split, hc, h, join, ih]
      · cases ls with
        | nil => simpa [split, hc, h, join] using ih
        | cons m ms => simpa [split, hc, h, join] using ih

theorem indexByte_spec (s : Str) (c : Char) :
    (c ∉ s ∧ indexByte s c = -1) ∨
    (∃ pre post, s = pre ++ c :: post ∧ c ∉ pre ∧ indexByte s c = (pre.length : Int)) := by
  induction s with
  | nil => left; simp [indexByte]
  | cons x xs ih =>
    by_cases hx : x = c
    · right
      exact ⟨[], xs, by simp [hx], by simp, by simp [indexByte, hx]⟩
    · rcases ih with ⟨hn, he⟩ | ⟨pre, post, hs, hn, he⟩
      · left
        refine ⟨by simp [hn, Ne.symm hx], ?_⟩
        simp [indexByte, hx, he]
      · right
        refine ⟨x :: pre, post, by simp [hs], by simp [hn, Ne.symm hx], ?_⟩
        have h0 : ¬ ((pre.length : Int) < 0) := by omega
        simp only [indexByte, hx, if_false, he, h0]
        simp

theorem lastIndexByte_spec (s : Str) (c : Char) :
    (c ∉ s ∧ lastIndexByte s c = -1) ∨
    (∃ pre post, s = pre ++ c :: post ∧ c ∉ post ∧
      lastIndexByte s c = (pre.length : Int)) := by
  induction s with
  | nil => left; simp [lastIndexByte]
  | cons x xs ih =>
    rcases ih with ⟨hn, he⟩ | ⟨pre, post, hs, hn, he⟩
    · by_cases hx : x = c
      · right
        exact ⟨[], xs, by simp [hx], hn, by simp [lastIndexByte, he, hx]⟩
      · left
        exact ⟨by simp [hn, Ne.symm hx], by simp [lastIndexByte, he, hx]⟩
    · right
      refine ⟨x :: pre, post, by simp [hs], hn, ?_⟩
      have h0 : (0 : Int) ≤ (pre.length : Int) := by omega
      simp only [lastIndexByte, he, h0, if_true]
      simp

/-- The three ways the first and the last occurrence of `c` in `s` relate. -/
theorem first_last_cases (s : Str) (c : Char) :
    (s.count c = 0 ∧ indexByte s c = -1 ∧ lastIndexByte s c = -1) ∨
    (s.count c = 1 ∧ indexByte s c = lastIndexByte s c ∧ 0 ≤ indexByte s c) ∨
    (∃ pre mid post, s = pre ++ c :: mid ++ c :: post ∧ c ∉ pre ∧ c ∉ post ∧
      indexByte s c = (pre.length : Int) ∧
      lastIndexByte s c = (pre.length : Int) + 1 + (mid.length : Int)) := by
  rcases indexByte_spec s c with ⟨hn, he⟩ | ⟨pre, post, hs, hn, he⟩
  · left
    rcases lastIndexByte_spec s c with ⟨_, he2⟩ | ⟨pre2, post2, hs2, _, _⟩
    · exact ⟨List.count_eq_zero_of_not_mem hn, he, he2⟩
    · exact absurd (by simp [hs2]) hn
  · right
    rcases lastIndexByte_spec s c with ⟨hn2, _⟩ | ⟨pre2, post2, hs2, hn2, he2⟩
    · exact absurd (by simp [hs]) hn2
    · have heq : pre ++ c :: post = pre2 ++ c :: post2 := hs.symm.trans hs2
      rcases List.append_eq_append_iff.mp heq with ⟨a, ha, hb⟩ | ⟨a, ha, hb⟩
      · cases a with
        | nil =>
          simp at ha hb
          left
          subst ha
          obtain rfl : post = post2 := hb
          refine ⟨?_, by rw [he, he2], by omega⟩
          rw [hs]
          simp [List.count_eq_zero_of_not_mem hn, List.count_eq_zero_of_not_mem hn2]
        | cons y ys =>
          simp at hb
          obtain ⟨rfl, hb⟩ := hb
          right
          refine ⟨pre, ys, post2, by rw [hs, hb]; simp, hn, hn2, he, ?_⟩
          rw [he2, ha]; simp; omega
      · cases a with
        | nil =>
          simp at ha hb
          left
          subst ha
          obtain rfl : post2 = post := hb
          refine ⟨?_, by rw [he, he2], by omega⟩
          rw [hs]
          simp [List.count_eq_zero_of_not_mem hn, List.count_eq_zero_of_not_mem hn2]
        | cons y ys =>
          simp at hb
          obtain ⟨rfl, _⟩ := hb
          exact absurd (by simp [ha]) hn

theorem slice_middle (pre mid post : Str) (c : Char) :
    slice (pre ++ c :: mid ++ c :: post) ((pre.length : Int) + 1)
      ((pre.length : Int) + 1 + (mid.length : Int)) = .ok mid := by
  have h : (0 : Int) ≤ (pre.length : Int) + 1 ∧
      (pre.length : Int) + 1 ≤ (pre.length : Int) + 1 + (mid.length : Int) ∧
      (pre.length : Int) + 1 + (mid.length : Int) ≤
        ((pre ++ c :: mid ++ c :: post).length : Int) := by
    simp only [List.length_append, List.length_cons]
    push_cast
    omega
  have h1 : ((pre.length : Int) + 1).toNat = pre.length + 1 := by omega
  have h2 : ((pre.length : Int) + 1 + (mid.length : Int)).toNat - (pre.length + 1)
      = mid.length := by omega
  simp only [slice, h, and_self, if_true, h1, h2]
  have h3 : pre ++ c :: mid ++ c :: post = (pre ++ [c]) ++ (mid ++ c :: post) := by simp
  have h4 : (pre ++ [c]).length = pre.length + 1 := by simp
  rw [h3, ← h4, List.drop_left, List.take_left]

/-- What `parseThread` returns on a non-empty accumulator: an error when the
header has fewer than two double quotes, else the record whose name is the
text between the first and the last double quote. -/
theorem parseThread_cases (h : Str) (body : List Str) :
    (h.count dquote < 2 ∧ parseThread (h :: body) = .ok (.error noThreadName)) ∨
    (2 ≤ h.count dquote ∧ ∃ pre name post,
      h = pre ++ dquote :: name ++ dquote :: post ∧ dquote ∉ pre ∧ dquote ∉ post ∧
      parseThread (h :: body) = .ok (.ok ⟨h, name, join body⟩)) := by
  rcases first_last_cases h dquote with ⟨hc, hi, hl⟩ | ⟨hc, hil, h0⟩ |
    ⟨pre, mid, post, hs, hn, hn2, hi, hl⟩
  · left
    refine ⟨by omega, ?_⟩
    simp [parseThread, hi]
  · left
    refine ⟨by omega, ?_⟩
    simp [parseThread, hil]
  · right
    refine ⟨?_, pre, mid, post, hs, hn, hn2, ?_⟩
    · rw [hs]; simp; omega
    · have hc : ¬ (indexByte h dquote < 0 ∨ lastIndexByte h dquote ≤ indexByte h dquote) := by
        rw [hi, hl]; omega
      have hsl : slice h (indexByte h dquote + 1) (lastIndexByte h dquote) = .ok mid := by
        rw [hi, hl]
        conv_lhs => rw [hs]
        exact slice_middle pre mid post dquote
      simp only [parseThread, hc, if_false, hsl]

theorem headerBlocks_dropWhile (ls : List Str) :
    headerBlocks (ls.dropWhile isContinuation) = headerBlocks ls := by
  induction ls with
  | nil => rfl
  | cons l ls ih =>
    by_cases hl : isContinuation l = true
    · simp [List.dropWhile_cons, hl, headerBlocks, ih]
    · simp [List.dropWhile_cons, hl]

theorem parseLoop_open (ls : List Str) (threads : List Thread) (h : Str) (body : List Str) :
    parseLoop ls threads (h :: body) =
      finish threads ((h, body ++ ls.takeWhile isContinuation) ::
        headerBlocks (ls.dropWhile isContinuation)) ∧
    parseLoop ls threads [] = finish threads (headerBlocks ls) := by
  induction ls generalizing threads h body with
  | nil =>
    constructor
    · simp only [parseLoop, List.length_cons, Nat.zero_lt_succ, if_true, List.takeWhile_nil,
        List.dropWhile_nil, headerBlocks, finish, List.append_nil]
    · simp [parseLoop, headerBlocks, finish]
  | cons l ls ih =>
    by_cases hl : isContinuation l = true
    · constructor
      · have := (ih threads h (body ++ [l])).1
        simp only [parseLoop, hl, if_true, List.length_cons, Nat.zero_lt_succ,
          List.cons_append, this, List.takeWhile_cons, List.dropWhile_cons, List.append_assoc,
          List.singleton_append, List.nil_append]
      · have := (ih threads h body).2
        simp [parseLoop, hl, headerBlocks, this]
    · have hl2 : isContinuation l = false := by simpa using hl
      constructor
      · simp only [parseLoop, hl2, Bool.false_eq_true, if_false, List.length_cons,
          Nat.zero_lt_succ, if_true, List.takeWhile_cons, List.dropWhile_cons, finish,
          List.append_nil]
        rcases hp : parseThread (h :: body) with p | r
        · rfl
        · cases r with
          | error e => rfl
          | ok t =>
            by_cases hid : hasIds l = true
            · have := (ih (threads ++ [t]) l []).1
              simp [hid, headerBlocks, hl2, this, finish, headerBlocks_dropWhile]
            · have := (ih (threads ++ [t]) l []).2
              simp [hid, headerBlocks, hl2, this]
      · by_cases hid : hasIds l = true
        · have := (ih threads l []).1
          simp [parseLoop, hl2, hid, headerBlocks, this, headerBlocks_dropWhile]
        · have := (ih threads l []).2
          simp [parseLoop, hl2, hid, headerBlocks, this]

theorem ParseThreads_eq_finish (text : Str) :
    ParseThreads text = finish [] (headerBlocks (split text)) :=
  (parseLoop_open (split text) [] [] []).2

theorem finish_spec (threads : List Thread) (blocks : List (Str × List Str)) :
    (∃ ts, finish threads blocks = .ok (threads ++ ts, none) ∧
      List.Forall₂ Closes ts blocks ∧ ∀ b ∈ blocks, 2 ≤ b.1.count dquote) ∨
    (finish threads blocks = .ok ([], some noThreadName) ∧
      ∃ b ∈ blocks, b.1.count dquote < 2) := by
  induction blocks generalizing threads with
  | nil =>
    left
    exact ⟨[], by simp [finish], List.Forall₂.nil, by simp⟩
  | cons b bs ih =>
    rcases parseThread_cases b.1 b.2 with ⟨hc, hp⟩ | ⟨hc, pre, name, post, hs, hn, hn2, hp⟩
    · right
      exact ⟨by simp [finish, hp], b, by simp, hc⟩
    · rcases ih (threads ++ [⟨b.1, name, join b.2⟩]) with ⟨ts, hf, hall, hq⟩ | ⟨hf, c, hc1, hc2⟩
      · left
        refine ⟨⟨b.1, name, join b.2⟩ :: ts, ?_, ?_, ?_⟩
        · simp only [finish, hp, hf]
          simp
        · exact List.Forall₂.cons ⟨rfl, rfl, pre, post, hs, hn, hn2⟩ hall
        · intro c hc1
          rcases List.mem_cons.mp hc1 with rfl | hc1
          · exact hc
          · exact hq c hc1
      · right
        exact ⟨by simp only [finish, hp, hf], c, List.mem_cons_of_mem _ hc1, hc2⟩

theorem headerBlocks_fst (ls : List Str) :
    (headerBlocks ls).map Prod.fst = ls.filter (fun l => decide (IsHeaderLine l)) := by
  induction ls with
  | nil => rfl
  | cons l ls ih =>
    by_cases hl : IsHeaderLine l
    · have h2 := (isHeaderLine_iff l).mp hl
      simp [headerBlocks, h2.1, h2.2, hl, ih]
    · have h2 : (!isContinuation l && hasIds l) = false := by
        by_contra hc
        apply hl
        rw [isHeaderLine_iff]
        simpa using hc
      simp [headerBlocks, h2, hl, ih]

theorem takeWhile_isContinuation (ls : List Str) :
    ls.takeWhile isContinuation = ls.takeWhile (fun l => decide (IsContinuationLine l)) := by
  congr 1
  funext l
  by_cases h : IsContinuationLine l
  · simp [h, (isContinuation_iff l).mpr h]
  · have : isContinuation l = false := by
      by_contra hc
      exact h ((isContinuation_iff l).mp (by simpa using hc))
    simp [h, this]

/-- The block at position `i` sits at the header line that has `i` header
lines before it, and holds the continuation lines that follow. -/
theorem headerBlocks_get (ls : List Str) (i : Nat) (b : Str × List Str)
    (hb : (headerBlocks ls)[i]? = some b) :
    ∃ pre rest, ls = pre ++ b.1 :: rest ∧ IsHeaderLine b.1 ∧
      pre.countP (fun l => decide (IsHeaderLine l)) = i ∧
      b.2 = rest.takeWhile (fun l => decide (IsContinuationLine l)) := by
  induction ls generalizing i with
  | nil => simp [headerBlocks] at hb
  | cons l ls ih =>
    by_cases hl : IsHeaderLine l
    · have h2 := (isHeaderLine_iff l).mp hl
      simp only [headerBlocks, h2.1, h2.2, Bool.not_false, Bool.and_self, if_true] at hb
      cases i with
      | zero =>
        simp at hb
        subst hb
        exact ⟨[], ls, by simp, hl, by simp, takeWhile_isContinuation ls⟩
      | succ j =>
        simp at hb
        obtain ⟨pre, rest, hs, hh, hcnt, hrun⟩ := ih j hb
        refine ⟨l :: pre, rest, by simp [hs], hh, ?_, hrun⟩
        simp [List.countP_cons, hl, hcnt]
    · have h2 : (!isContinuation l && hasIds l) = false := by
        by_contra hc
        apply hl
        rw [isHeaderLine_iff]
        simpa using hc
      simp only [headerBlocks, h2, Bool.false_eq_true, if_false] at hb
      obtain ⟨pre, rest, hs, hh, hcnt, hrun⟩ := ih i hb
      refine ⟨l :: pre, rest, by simp [hs], hh, ?_, hrun⟩
      simp [List.countP_cons, hl, hcnt]

theorem mem_headerBlocks_fst (ls : List Str) (l : Str) :
    (∃ b ∈ headerBlocks ls, b.1 = l) ↔ l ∈ ls ∧ IsHeaderLine l := by
  have h := headerBlocks_fst ls
  have : l ∈ (headerBlocks ls).map Prod.fst ↔ l ∈ ls ∧ IsHeaderLine l := by
    rw [h]; simp
  rw [← this]
  simp

/-- A run of `ParseThreads` never panics and never reports an error together
with records: it ends with the records of all blocks, or with the error
`noThreadName` and no record. -/
theorem ParseThreads_cases (text : Str) :
    (∃ ts, ParseThreads text = .ok (ts, none) ∧
      List.Forall₂ Closes ts (headerBlocks (split text)) ∧
      ∀ l ∈ split text, IsHeaderLine l → 2 ≤ l.count dquote) ∨
    (ParseThreads text = .ok ([], some noThreadName) ∧
      ∃ l ∈ split text, IsHeaderLine l ∧ l.count dquote < 2) := by
  rw [ParseThreads_eq_finish]
  rcases finish_spec [] (headerBlocks (split text)) with ⟨ts, hf, hall, hq⟩ | ⟨hf, b, hb, hc⟩
  · left
    refine ⟨ts, by simpa using hf, hall, ?_⟩
    intro l hl hh
    obtain ⟨b, hb, rfl⟩ := (mem_headerBlocks_fst (split text) l).mpr ⟨hl, hh⟩
    exact hq b hb
  · right
    have := (mem_headerBlocks_fst (split text) b.1).mp ⟨b, hb, rfl⟩
    exact ⟨hf, b.1, this.1, this.2, hc⟩

theorem ParseThreads_ok (text : Str) (ts : List Thread)
    (h : ParseThreads text = .ok (ts, none)) :
    List.Forall₂ Closes ts (headerBlocks (split text)) ∧
      ∀ l ∈ split text, IsHeaderLine l → 2 ≤ l.count dquote := by
  rcases ParseThreads_cases text with ⟨ts2, h2, hall, hq⟩ | ⟨h2, _⟩
  · rw [h] at h2
    simp only [Except.ok.injEq, Prod.mk.injEq, and_true] at h2
    subst h2
    exact ⟨hall, hq⟩
  · rw [h] at h2
    simp at h2

theorem ParseThreads_err (text : Str) (ts : List Thread) (e : GoError)
    (h : ParseThreads text = .ok (ts, some e)) :
    ts = [] ∧ e = noThreadName ∧ ∃ l ∈ split text, IsHeaderLine l ∧ l.count dquote < 2 := by
  rcases ParseThreads_cases text with ⟨ts2, h2, _, _⟩ | ⟨h2, hex⟩
  · rw [h] at h2
    simp at h2
  · rw [h] at h2
    simp only [Except.ok.injEq, Prod.mk.injEq, Option.some.injEq] at h2
    exact ⟨h2.1, h2.2, hex⟩

theorem closes_map_header (ts : List Thread) (bs : List (Str × List Str))
    (h : List.Forall₂ Closes ts bs) : ts.map Thread.Header = bs.map Prod.fst := by
  induction h with
  | nil => rfl
  | cons hc _ ih => simp [hc.1, ih]

theorem forall₂_index {α β : Type} (R : α → β → Prop) (xs : List α) (ys : List β)
    (h : List.Forall₂ R xs ys) (i : Nat) (x : α) (hx : xs[i]? = some x) :
    ∃ y, ys[i]? = some y ∧ R x y := by
  induction h generalizing i with
  | nil => simp at hx
  | cons hr _ ih =>
    cases i with
    | zero =>
      simp at hx
      subst hx
      exact ⟨_, by simp, hr⟩
    | succ j =>
      simp at hx
      simpa using ih j hx

theorem join_eq_nil_iff (ls : List Str) (h : ∀ l ∈ ls, l ≠ []) : join ls = [] ↔ ls = [] := by
  cases ls with
  | nil => simp [join]
  | cons l ms =>
    have hl : l ≠ [] := h l (by simp)
    cases ms with
    | nil => simp [join, hl]
    | cons m ms => simp [join, hl]

/-! ## Segmentation: the claims -/

set_option maxRecDepth 100000 in
theorem sampleDump_parse : ParseThreads sampleDump = .ok ([mainThread, gcThread], none) := by
  decide

/-- C1: when `ParseThreads` succeeds, the headers of the returned records are,
in order and with multiplicity, the lines of the input that are non-empty, do
not begin with a space or a tab and contain both `nid=` and `tid=`. -/
theorem C1_headers_are_the_header_lines (text : Str) (ts : List Thread)
    (h : ParseThreads text = .ok (ts, none)) :
    ts.map Thread.Header = (split text).filter (fun l => decide (IsHeaderLine l)) := by
  rw [closes_map_header ts _ (ParseThreads_ok text ts h).1, headerBlocks_fst]

theorem C1_headers_witness :
    ParseThreads sampleDump = .ok ([mainThread, gcThread], none) ∧
    [mainThread, gcThread].map Thread.Header
      = (split sampleDump).filter (fun l => decide (IsHeaderLine l)) :=
  ⟨sampleDump_parse, C1_headers_are_the_header_lines sampleDump _ sampleDump_parse⟩

/-- C2: when `ParseThreads` succeeds, the record at position `i` comes from the
header line with `i` header lines before it, and its `Stack` is the join of the
maximal run of continuation lines that follows that line directly; `Stack` is
empty exactly when the run is empty. -/
theorem C2_stack_is_the_following_run (text : Str) (ts : List Thread)
    (h : ParseThreads text = .ok (ts, none)) (i : Nat) (t : Thread) (ht : ts[i]? = some t) :
    ∃ pre rest, split text = pre ++ t.Header :: rest ∧ IsHeaderLine t.Header ∧
      pre.countP (fun l => decide (IsHeaderLine l)) = i ∧
      t.Stack = join (rest.takeWhile (fun l => decide (IsContinuationLine l))) ∧
      (t.Stack = [] ↔ rest.takeWhile (fun l => decide (IsContinuationLine l)) = []) := by
  obtain ⟨b, hb, hh, hs, _⟩ := forall₂_index Closes ts _ (ParseThreads_ok text ts h).1 i t ht
  obtain ⟨pre, rest, hsp, hhl, hcnt, hrun⟩ := headerBlocks_get (split text) i b hb
  refine ⟨pre, rest, by rw [hh]; exact hsp, by rw [hh]; exact hhl, hcnt, by rw [hs, hrun], ?_⟩
  rw [hs, hrun]
  apply join_eq_nil_iff
  intro l hl
  have := List.mem_takeWhile_imp hl
  simp only [decide_eq_true_eq] at this
  exact this.1

theorem C2_stack_witness :
    ParseThreads sampleDump = .ok ([mainThread, gcThread], none) ∧
    [mainThread, gcThread][0]? = some mainThread ∧
    ∃ pre rest, split sampleDump = pre ++ mainThread.Header :: rest ∧
      IsHeaderLine mainThread.Header ∧
      pre.countP (fun l => decide (IsHeaderLine l)) = 0 ∧
      mainThread.Stack = join (rest.takeWhile (fun l => decide (IsContinuationLine l))) ∧
      (mainThread.Stack = [] ↔ rest.takeWhile (fun l => decide (IsContinuationLine l)) = []) :=
  ⟨sampleDump_parse, rfl,
    C2_stack_is_the_following_run sampleDump _ sampleDump_parse 0 mainThread rfl⟩

set_option maxRecDepth 100000 in
theorem thread1Header_parse :
    ParseThreads thread1Header = .ok ([⟨thread1Header, "Thread-1".toList, []⟩], none) := by
  decide

set_option maxRecDepth 100000 in
/-- C3: for every record returned by `ParseThreads`, `Name` is the part of
`Header` strictly between its first and its last double quote, that is
`Header = pre ++ quote ++ Name ++ quote ++ post` with no double quote in `pre`
or `post`; and an accumulator whose header is
`"Thread-1" nid=0x1 tid=0x2 runnable` gives the name `Thread-1`. -/
theorem C3_name_is_between_first_and_last_quote :
    (∀ (text : Str) (ts : List Thread) (t : Thread),
      ParseThreads text = .ok (ts, none) → t ∈ ts →
      ∃ pre post, t.Header = pre ++ dquote :: t.Name ++ dquote :: post ∧
        dquote ∉ pre ∧ dquote ∉ post) ∧
    (∀ body : List Str, parseThread (thread1Header :: body)
      = .ok (.ok ⟨thread1Header, "Thread-1".toList, join body⟩)) := by
  constructor
  · intro text ts t h ht
    obtain ⟨i, hi⟩ := List.getElem?_of_mem ht
    obtain ⟨b, _, hh, _, pre, post, hs, hn, hn2⟩ :=
      forall₂_index Closes ts _ (ParseThreads_ok text ts h).1 i t hi
    exact ⟨pre, post, by rw [hh]; exact hs, hn, hn2⟩
  · intro body
    have h1 : indexByte thread1Header dquote = 0 := by decide
    have h2 : lastIndexByte thread1Header dquote = 9 := by decide
    have h3 : slice thread1Header (0 + 1) 9 = .ok "Thread-1".toList := by decide
    simp only [parseThread, h1, h2, h3]
    rfl

theorem C3_name_witness :
    ParseThreads thread1Header = .ok ([⟨thread1Header, "Thread-1".toList, []⟩], none) ∧
    (⟨thread1Header, "Thread-1".toList, []⟩ : Thread) ∈
      [(⟨thread1Header, "Thread-1".toList, []⟩ : Thread)] ∧
    ∃ pre post, thread1Header = pre ++ dquote :: "Thread-1".toList ++ dquote :: post ∧
      dquote ∉ pre ∧ dquote ∉ post :=
  ⟨thread1Header_parse, List.mem_singleton.mpr rfl,
    C3_name_is_between_first_and_last_quote.1 thread1Header _ _ thread1Header_parse
      (List.mem_singleton.mpr rfl)⟩

set_option maxRecDepth 100000 in
/-- C4: `ParseThreads` returns an error exactly when some line of the input
that is non-empty, does not begin with a space or a tab and contains both
`nid=` and `tid=` has fewer than two double quotes; the input
`bogus nid=1 tid=2\n  at foo()` fails; and every input whose header lines all
have two or more double quotes succeeds. -/
theorem C4_error_iff_header_without_quote_pair :
    (∀ text : Str, (∃ ts e, ParseThreads text = .ok (ts, some e)) ↔
      ∃ l ∈ split text, IsHeaderLine l ∧ l.count dquote < 2) ∧
    ParseThreads bogusDump = .ok ([], some noThreadName) ∧
    (∀ text : Str, (∀ l ∈ split text, IsHeaderLine l → 2 ≤ l.count dquote) →
      ∃ ts, ParseThreads text = .ok (ts, none)) := by
  refine ⟨?_, by decide, ?_⟩
  · intro text
    constructor
    · rintro ⟨ts, e, h⟩
      exact (ParseThreads_err text ts e h).2.2
    · rintro ⟨l, hl, hh, hc⟩
      rcases ParseThreads_cases text with ⟨ts, _, _, hq⟩ | ⟨h, _⟩
      · have := hq l hl hh
        omega
      · exact ⟨[], noThreadName, h⟩
  · intro text hall
    rcases ParseThreads_cases text with ⟨ts, h, _, _⟩ | ⟨_, l, hl, hh, hc⟩
    · exact ⟨ts, h⟩
    · have := hall l hl hh
      omega

set_option maxRecDepth 100000 in
theorem C4_error_witness :
    (∀ l ∈ split sampleDump, IsHeaderLine l → 2 ≤ l.count dquote) ∧
    ∃ ts, ParseThreads sampleDump = .ok (ts, none) :=
  ⟨by decide, C4_error_iff_header_without_quote_pair.2.2 sampleDump (by decide)⟩

set_option maxRecDepth 100000 in
theorem brokenDump_parse : ParseThreads brokenDump = .ok ([], some noThreadName) := by
  decide

/-- C5: whenever `ParseThreads` returns an error it returns no record (also
when well-formed records precede the malformed header, as in `brokenDump`),
and the run writes nothing to standard output, in list mode and in count
mode alike, and exits with status 1. -/
theorem C5_error_is_all_or_nothing :
    (∀ (text : Str) (ts : List Thread) (e : GoError),
      ParseThreads text = .ok (ts, some e) →
      ts = [] ∧ ∀ (pattern : Str → Bool) (invert countOnly matchName : Bool),
        run pattern invert countOnly matchName text = .ok ⟨[], 1⟩) ∧
    ParseThreads brokenDump = .ok ([], some noThreadName) := by
  refine ⟨?_, brokenDump_parse⟩
  intro text ts e h
  refine ⟨(ParseThreads_err text ts e h).1, ?_⟩
  intro pattern invert countOnly matchName
  simp only [run, h]

theorem C5_error_witness :
    ParseThreads brokenDump = .ok ([], some noThreadName) ∧
    (([] : List Thread) = [] ∧ ∀ (pattern : Str → Bool) (invert countOnly matchName : Bool),
      run pattern invert countOnly matchName brokenDump = .ok ⟨[], 1⟩) :=
  ⟨brokenDump_parse, C5_error_is_all_or_nothing.1 brokenDump [] noThreadName brokenDump_parse⟩

/-- C6: when no line of the input contains both `nid=` and `tid=`,
`ParseThreads` succeeds with no record, and for every pattern and every
setting of `invert` and `matchName` the run prints nothing in list mode and
prints `0` and a newline in count mode. -/
theorem C6_no_header_no_record (text : Str)
    (h : ∀ l ∈ split text, ¬ (nidTag <:+: l ∧ tidTag <:+: l)) :
    ParseThreads text = .ok ([], none) ∧
    ∀ (pattern : Str → Bool) (invert matchName : Bool),
      run pattern invert false matchName text = .ok ⟨[], 0⟩ ∧
      run pattern invert true matchName text = .ok ⟨"0\n".toList, 0⟩ := by
  have hb : headerBlocks (split text) = [] := by
    have h1 := headerBlocks_fst (split text)
    have h2 : (split text).filter (fun l => decide (IsHeaderLine l)) = [] := by
      rw [List.filter_eq_nil_iff]
      intro l hl
      simp only [decide_eq_true_eq]
      intro hh
      exact h l hl ⟨hh.2.2.2.1, hh.2.2.2.2⟩
    rw [h2] at h1
    simpa using h1
  have hp : ParseThreads text = .ok ([], none) := by
    rw [ParseThreads_eq_finish, hb]
    rfl
  refine ⟨hp, ?_⟩
  intro pattern invert matchName
  constructor
  · simp only [run, hp]
    rfl
  · have h0 : (Nat.repr 0).toList ++ [newline] = "0\n".toList := by decide
    simp only [run, hp, report, List.foldl_nil, if_true, List.nil_append, h0]

set_option maxRecDepth 100000 in
theorem C6_no_header_witness :
    (∀ l ∈ split bannerText, ¬ (nidTag <:+: l ∧ tidTag <:+: l)) ∧
    ParseThreads bannerText = .ok ([], none) ∧
    ∀ (pattern : Str → Bool) (invert matchName : Bool),
      run pattern invert false matchName bannerText = .ok ⟨[], 0⟩ ∧
      run pattern invert true matchName bannerText = .ok ⟨"0\n".toList, 0⟩ :=
  ⟨by decide, C6_no_header_no_record bannerText (by decide)⟩

theorem headerBlocks_skip (cs ls : List Str) (h : ∀ l ∈ cs, IsContinuationLine l) :
    headerBlocks (cs ++ ls) = headerBlocks ls := by
  induction cs with
  | nil => rfl
  | cons c cs ih =>
    have hc : isContinuation c = true := (isContinuation_iff c).mpr (h c (by simp))
    have hr : ∀ l ∈ cs, IsContinuationLine l := fun l hl => h l (List.mem_cons_of_mem _ hl)
    simp [headerBlocks, hc, ih hr]

theorem takeWhile_append_empty_line (ls : List Str) :
    (ls ++ [[]]).takeWhile isContinuation = ls.takeWhile isContinuation := by
  induction ls with
  | nil => simp [List.takeWhile, isContinuation]
  | cons l ls ih =>
    by_cases hl : isContinuation l = true
    · simp [List.takeWhile_cons, hl, ih]
    · simp [List.takeWhile_cons, hl]

theorem headerBlocks_append_empty_line (ls : List Str) :
    headerBlocks (ls ++ [[]]) = headerBlocks ls := by
  induction ls with
  | nil => simp [headerBlocks, isContinuation, hasIds]
  | cons l ls ih =>
    have e : l :: ls ++ [[]] = l :: (ls ++ [[]]) := rfl
    rw [e, headerBlocks, headerBlocks, ih, takeWhile_append_empty_line]

/-- C7: continuation lines before any header are discarded: for a block `c`
all of whose lines are non-empty and begin with a space or a tab, and any text
`s`, `ParseThreads` gives on `c`, a newline and `s` the same result (records
or error) as on `s`. -/
theorem C7_leading_continuation_lines_are_dropped (c s : Str)
    (h : ∀ l ∈ split c, IsContinuationLine l) :
    ParseThreads (c ++ newline :: s) = ParseThreads s := by
  rw [ParseThreads_eq_finish, ParseThreads_eq_finish, split_append_newline,
    headerBlocks_skip _ _ h]

set_option maxRecDepth 100000 in
theorem C7_leading_continuation_witness :
    (∀ l ∈ split strayLines, IsContinuationLine l) ∧
    ParseThreads (strayLines ++ newline :: sampleDump) = ParseThreads sampleDump :=
  ⟨by decide, C7_leading_continuation_lines_are_dropped strayLines sampleDump (by decide)⟩

/-- C8: two valid header lines `h1` and `h2` (non-empty, not beginning with a
space or a tab, containing `nid=`, `tid=` and two double quotes, without a
newline) joined by a newline give exactly two records, with headers `h1` and
`h2` in that order and an empty `Stack` in both. -/
theorem C8_two_consecutive_headers (h1 h2 : Str)
    (hh1 : IsHeaderLine h1) (hh2 : IsHeaderLine h2)
    (hq1 : 2 ≤ h1.count dquote) (hq2 : 2 ≤ h2.count dquote)
    (hn1 : newline ∉ h1) (hn2 : newline ∉ h2) :
    ∃ n1 n2, ParseThreads (h1 ++ newline :: h2)
      = .ok ([⟨h1, n1, []⟩, ⟨h2, n2, []⟩], none) := by
  have c1 := (isHeaderLine_iff h1).mp hh1
  have c2 := (isHeaderLine_iff h2).mp hh2
  rcases parseThread_cases h1 [] with ⟨hc, _⟩ | ⟨_, _, n1, _, _, _, _, hp1⟩
  · omega
  rcases parseThread_cases h2 [] with ⟨hc, _⟩ | ⟨_, _, n2, _, _, _, _, hp2⟩
  · omega
  refine ⟨n1, n2, ?_⟩
  have hs : split (h1 ++ newline :: h2) = [h1, h2] := by
    rw [split_append_newline, split_of_no_newline h1 hn1, split_of_no_newline h2 hn2]
    rfl
  have hb : headerBlocks [h1, h2] = [(h1, []), (h2, [])] := by
    simp [headerBlocks, c1.1, c1.2, c2.1, c2.2, List.takeWhile_cons]
  have j0 : join [] = [] := rfl
  rw [j0] at hp1 hp2
  rw [ParseThreads_eq_finish, hs, hb]
  simp only [finish, hp1, hp2, List.nil_append, List.singleton_append]

set_option maxRecDepth 100000 in
theorem C8_two_headers_witness :
    (IsHeaderLine thread1Header ∧ IsHeaderLine gcHeader ∧
      2 ≤ thread1Header.count dquote ∧ 2 ≤ gcHeader.count dquote ∧
      newline ∉ thread1Header ∧ newline ∉ gcHeader) ∧
    ∃ n1 n2, ParseThreads (thread1Header ++ newline :: gcHeader)
      = .ok ([⟨thread1Header, n1, []⟩, ⟨gcHeader, n2, []⟩], none) :=
  ⟨by decide, C8_two_consecutive_headers thread1Header gcHeader (by decide) (by decide)
    (by decide) (by decide) (by decide) (by decide)⟩

/-- C9: a trailing newline changes nothing: `ParseThreads` gives on a text
followed by a newline the same result (records or error) as on the text, so
the trailing empty line makes no record. -/
theorem C9_trailing_newline_is_a_no_op (s : Str) :
    ParseThreads (s ++ [newline]) = ParseThreads s := by
  rw [ParseThreads_eq_finish, ParseThreads_eq_finish, split_append_newline]
  have : split [] = [[]] := rfl
  rw [this, headerBlocks_append_empty_line]

set_option maxRecDepth 100000 in
theorem quotedNameDump_parse :
    ParseThreads quotedNameDump
      = .ok ([⟨quotedNameDump, "\"foo\"".toList, []⟩], none) := by
  decide

set_option maxRecDepth 100000 in
/-- C10, as stated, fails: on the input `""foo"" nid=1 tid=2` the one record
returned has the name `"foo"`, which begins and ends with a double quote; so
it is not true that no returned record has a quote-delimited name. -/
theorem C10_name_can_be_quote_delimited :
    (ParseThreads quotedNameDump = .ok ([⟨quotedNameDump, "\"foo\"".toList, []⟩], none) ∧
      ("\"foo\"".toList).head? = some dquote ∧
      ("\"foo\"".toList).getLast? = some dquote) ∧
    ¬ (∀ (text : Str) (ts : List Thread) (t : Thread),
      ParseThreads text = .ok (ts, none) → t ∈ ts →
      ¬ (t.Name.head? = some dquote ∧ t.Name.getLast? = some dquote)) := by
  refine ⟨⟨quotedNameDump_parse, by decide, by decide⟩, ?_⟩
  intro h
  exact h quotedNameDump _ ⟨quotedNameDump, "\"foo\"".toList, []⟩ quotedNameDump_parse
    (List.mem_singleton.mpr rfl) (by decide)

/-- C10, amended: the two delimiting quotes are stripped and nothing else:
for every record returned by `ParseThreads`, `Name` has exactly two double
quotes fewer than `Header`; so when `Header` has exactly two double quotes,
`Name` has none and is not quote-delimited. -/
theorem C10_name_loses_exactly_the_outer_quotes (text : Str) (ts : List Thread) (t : Thread)
    (h : ParseThreads text = .ok (ts, none)) (ht : t ∈ ts) :
    t.Name.count dquote + 2 = t.Header.count dquote ∧
    (t.Header.count dquote = 2 →
      dquote ∉ t.Name ∧ ¬ (t.Name.head? = some dquote ∧ t.Name.getLast? = some dquote)) := by
  obtain ⟨i, hi⟩ := List.getElem?_of_mem ht
  obtain ⟨b, _, hh, _, pre, post, hs, hn, hn2⟩ :=
    forall₂_index Closes ts _ (ParseThreads_ok text ts h).1 i t hi
  have hcount : t.Name.count dquote + 2 = t.Header.count dquote := by
    rw [hh, hs]
    simp [List.count_eq_zero_of_not_mem hn, List.count_eq_zero_of_not_mem hn2]
  refine ⟨hcount, ?_⟩
  intro h2
  have h0 : t.Name.count dquote = 0 := by omega
  have hnot : dquote ∉ t.Name := List.count_eq_zero.mp h0
  refine ⟨hnot, ?_⟩
  rintro ⟨hhead, _⟩
  exact hnot (List.mem_of_mem_head? hhead)

theorem C10_name_witness :
    ParseThreads sampleDump = .ok ([mainThread, gcThread], none) ∧
    mainThread ∈ [mainThread, gcThread] ∧
    mainThread.Name.count dquote + 2 = mainThread.Header.count dquote ∧
    (mainThread.Header.count dquote = 2 →
      dquote ∉ mainThread.Name ∧
      ¬ (mainThread.Name.head? = some dquote ∧ mainThread.Name.getLast? = some dquote)) :=
  ⟨sampleDump_parse, List.mem_cons_self _ _,
    C10_name_loses_exactly_the_outer_quotes sampleDump _ mainThread sampleDump_parse
      (List.mem_cons_self _ _)⟩

/-! ## The filter and report loop: the claims -/

theorem matchesThread_eq (pattern : Str → Bool) (matchName : Bool) (t : Thread) :
    matchesThread pattern matchName t = pattern (candidate matchName t) := by
  cases matchName <;> simp [matchesThread, candidate]

theorem reportStep_selected_count (pattern : Str → Bool) (invert matchName : Bool)
    (st : LoopState) (t : Thread) (h : Selected pattern invert matchName t = true) :
    reportStep pattern invert true matchName st t = { st with count := st.count + 1 } := by
  unfold Selected at h
  simp [reportStep, matchesThread_eq, h]

theorem reportStep_selected_list (pattern : Str → Bool) (invert matchName : Bool)
    (st : LoopState) (t : Thread) (h : Selected pattern invert matchName t = true) :
    reportStep pattern invert false matchName st t =
      { st with first := false,
                out := (if st.first then st.out else st.out ++ [newline])
                  ++ displayText t ++ [newline] } := by
  unfold Selected at h
  simp [reportStep, matchesThread_eq, h]

theorem reportStep_not_selected (pattern : Str → Bool) (invert countOnly matchName : Bool)
    (st : LoopState) (t : Thread) (h : Selected pattern invert matchName t = false) :
    reportStep pattern invert countOnly matchName st t = st := by
  unfold Selected at h
  simp [reportStep, matchesThread_eq, h]

theorem foldl_count (pattern : Str → Bool) (invert matchName : Bool)
    (ts : List Thread) (st : LoopState) :
    ts.foldl (reportStep pattern invert true matchName) st =
      { st with count := st.count + (ts.filter (Selected pattern invert matchName)).length } := by
  induction ts generalizing st with
  | nil => simp
  | cons t ts ih =>
    by_cases h : Selected pattern invert matchName t = true
    · rw [List.foldl_cons, reportStep_selected_count _ _ _ _ _ h, ih]
      simp [List.filter_cons, h]
      omega
    · have h2 : Selected pattern invert matchName t = false := by simpa using h
      rw [List.foldl_cons, reportStep_not_selected _ _ _ _ _ _ h2, ih]
      simp [List.filter_cons, h2]

theorem intercalate_cons_cons (sep a b : Str) (ls : List Str) :
    List.intercalate sep (a :: b :: ls) = a ++ sep ++ List.intercalate sep (b :: ls) := by
  simp [List.intercalate]

theorem listText_cons_cons (t u : Thread) (ts : List Thread) :
    listText (t :: u :: ts) = displayText t ++ [newline] ++ [newline] ++ listText (u :: ts) := by
  simp [listText, intercalate_cons_cons]

theorem foldl_list (pattern : Str → Bool) (invert matchName : Bool)
    (ts : List Thread) (st : LoopState) :
    ts.foldl (reportStep pattern invert false matchName) st =
      match ts.filter (Selected pattern invert matchName) with
      | [] => st
      | u :: us =>
        { st with first := false,
                  out := (if st.first then st.out else st.out ++ [newline])
                    ++ listText (u :: us) } := by
  induction ts generalizing st with
  | nil => simp
  | cons t ts ih =>
    by_cases h : Selected pattern invert matchName t = true
    · rw [List.foldl_cons, reportStep_selected_list _ _ _ _ _ h, ih]
      simp only [List.filter_cons, h, if_true]
      cases hsel : ts.filter (Selected pattern invert matchName) with
      | nil => simp [listText, List.intercalate]
      | cons u us => simp [listText_cons_cons]
    · have h2 : Selected pattern invert matchName t = false := by simpa using h
      rw [List.foldl_cons, reportStep_not_selected _ _ _ _ _ _ h2, ih]
      simp [List.filter_cons, h2]

theorem report_count (pattern : Str → Bool) (invert matchName : Bool) (ts : List Thread) :
    report pattern invert true matchName ts
      = countText (ts.filter (Selected pattern invert matchName)).length := by
  simp [report, foldl_count, countText]

theorem report_list (pattern : Str → Bool) (invert matchName : Bool) (ts : List Thread) :
    report pattern invert false matchName ts
      = listText (ts.filter (Selected pattern invert matchName)) := by
  simp only [report, foldl_list]
  cases hsel : ts.filter (Selected pattern invert matchName) with
  | nil => simp [listText]
  | cons u us => simp

theorem reportStep_changes (pattern : Str → Bool) (invert countOnly matchName : Bool)
    (st : LoopState) (t : Thread) :
    reportStep pattern invert countOnly matchName st t ≠ st ↔
      Selected pattern invert matchName t = true := by
  constructor
  · intro hne
    by_contra hs
    have h2 : Selected pattern invert matchName t = false := by simpa using hs
    exact hne (reportStep_not_selected _ _ _ _ _ _ h2)
  · intro hs heq
    cases countOnly with
    | true =>
      rw [reportStep_selected_count _ _ _ _ _ hs] at heq
      have := congrArg LoopState.count heq
      simp at this
    | false =>
      rw [reportStep_selected_list _ _ _ _ _ hs] at heq
      have := congrArg (fun x => x.out.length) heq
      by_cases hf : st.first = true
      · simp [hf] at this
      · simp [hf] at this

/-- C11: the loop acts on a record (counts it in count mode, prints its display
text in list mode) exactly when `matches(candidate) != invert`, where the
candidate is the `Name` alone when `matchName` is set and the display text
otherwise, and leaves the state alone otherwise; so with `matchName` set two
records with equal `Name` get the same decision, whatever their `Header` and
`Stack`. -/
theorem C11_matching_rule (pattern : Str → Bool) (invert countOnly matchName : Bool)
    (st : LoopState) (t : Thread) :
    (reportStep pattern invert countOnly matchName st t ≠ st ↔
      (pattern (if matchName then t.Name else displayText t) != invert) = true) ∧
    ((pattern (if matchName then t.Name else displayText t) != invert) = true →
      reportStep pattern invert countOnly matchName st t =
        if countOnly then { st with count := st.count + 1 }
        else { st with first := false,
                       out := (if st.first then st.out else st.out ++ [newline])
                         ++ displayText t ++ [newline] }) ∧
    ((pattern (if matchName then t.Name else displayText t) != invert) = false →
      reportStep pattern invert countOnly matchName st t = st) ∧
    (∀ u : Thread, u.Name = t.Name →
      (reportStep pattern invert countOnly true st u ≠ st ↔
        reportStep pattern invert countOnly true st t ≠ st)) := by
  refine ⟨reportStep_changes pattern invert countOnly matchName st t, ?_, ?_, ?_⟩
  · intro h
    cases countOnly with
    | true => exact reportStep_selected_count _ _ _ _ _ h
    | false => exact reportStep_selected_list _ _ _ _ _ h
  · intro h
    exact reportStep_not_selected _ _ _ _ _ _ h
  · intro u hu
    rw [reportStep_changes, reportStep_changes]
    simp [Selected, candidate, hu]

set_option maxRecDepth 100000 in
theorem C11_matching_witness :
    ((containsMain (if true then mainThread.Name else displayText mainThread) != false) = true ∧
      (⟨gcHeader, "main".toList, []⟩ : Thread).Name = mainThread.Name) ∧
    reportStep containsMain false true true ⟨0, true, []⟩ mainThread = ⟨1, true, []⟩ ∧
    (reportStep containsMain false true true ⟨0, true, []⟩ ⟨gcHeader, "main".toList, []⟩
        ≠ ⟨0, true, []⟩ ↔
      reportStep containsMain false true true ⟨0, true, []⟩ mainThread ≠ ⟨0, true, []⟩) :=
  ⟨⟨by decide, by decide⟩,
    (C11_matching_rule containsMain false true true ⟨0, true, []⟩ mainThread).2.1 (by decide),
    (C11_matching_rule containsMain false true true ⟨0, true, []⟩ mainThread).2.2.2
      ⟨gcHeader, "main".toList, []⟩ (by decide)⟩

/-- C12: inversion gives the complement: a record is selected with
`invert = true` exactly when it is not selected with `invert = false`; the two
selections are sub-sequences of the records in input order, together they hold
every record exactly once, the outputs of the run are those of the two
selections, and the two counts of count mode sum to the number of records. -/
theorem C12_inversion_is_the_complement (pattern : Str → Bool) (matchName : Bool)
    (ts : List Thread) :
    (∀ t : Thread, Selected pattern true matchName t = !Selected pattern false matchName t) ∧
    ts.filter (Selected pattern true matchName)
      = ts.filter (fun t => !Selected pattern false matchName t) ∧
    (ts.filter (Selected pattern true matchName)).Sublist ts ∧
    (ts.filter (Selected pattern false matchName)).Sublist ts ∧
    (ts.filter (Selected pattern false matchName)
      ++ ts.filter (Selected pattern true matchName)).Perm ts ∧
    report pattern true false matchName ts
      = listText (ts.filter (Selected pattern true matchName)) ∧
    report pattern false false matchName ts
      = listText (ts.filter (Selected pattern false matchName)) ∧
    report pattern true true matchName ts
      = countText (ts.filter (Selected pattern true matchName)).length ∧
    report pattern false true matchName ts
      = countText (ts.filter (Selected pattern false matchName)).length ∧
    (ts.filter (Selected pattern true matchName)).length
      + (ts.filter (Selected pattern false matchName)).length = ts.length := by
  have hc : ∀ t : Thread,
      Selected pattern true matchName t = !Selected pattern false matchName t := by
    intro t
    simp only [Selected]
    cases pattern (candidate matchName t) <;> rfl
  have hf : ts.filter (Selected pattern true matchName)
      = ts.filter (fun t => !Selected pattern false matchName t) := by
    congr 1
    funext t
    exact hc t
  have hp : (ts.filter (Selected pattern false matchName)
      ++ ts.filter (Selected pattern true matchName)).Perm ts := by
    rw [hf]
    exact List.filter_append_perm _ ts
  refine ⟨hc, hf, List.filter_sublist ts, List.filter_sublist ts, hp, report_list _ _ _ _,
    report_list _ _ _ _, report_count _ _ _ _, report_count _ _ _ _, ?_⟩
  have := hp.length_eq
  rw [List.length_append] at this
  omega

/-- C13: in count mode the output is exactly the decimal rendering of the
number of selected records (those with `matches(candidate) != invert`)
followed by one newline; nothing of any record is written. -/
theorem C13_count_mode_output (pattern : Str → Bool) (invert matchName : Bool)
    (ts : List Thread) :
    report pattern invert true matchName ts =
      (Nat.repr (ts.filter (fun t =>
        pattern (if matchName then t.Name else displayText t) != invert)).length).toList
        ++ [newline] :=
  report_count pattern invert matchName ts

/-- C14: in list mode the output is the display texts of the selected records
in input order joined by `"\n\n"` and followed by `"\n"` when at least one
record is selected, and the empty string when none is. -/
theorem C14_list_mode_output (pattern : Str → Bool) (invert matchName : Bool)
    (ts : List Thread) :
    report pattern invert false matchName ts =
      if ts.filter (fun t =>
          pattern (if matchName then t.Name else displayText t) != invert) = [] then []
      else List.intercalate [newline, newline]
        ((ts.filter (fun t =>
          pattern (if matchName then t.Name else displayText t) != invert)).map displayText)
        ++ [newline] := by
  have h := report_list pattern invert matchName ts
  have e : (fun t => pattern (if matchName then t.Name else displayText t) != invert)
      = Selected pattern invert matchName := rfl
  rw [h, e]
  cases ts.filter (Selected pattern invert matchName) with
  | nil => simp [listText]
  | cons u us => simp [listText]

theorem displayText_of_stack (t : Thread) (body : List Str)
    (hs : t.Stack = join body) (hb : ∀ l ∈ body, l ≠ []) :
    displayText t = join (t.Header :: body) := by
  cases body with
  | nil =>
    have : t.Stack = [] := by rw [hs]; rfl
    simp [displayText, this, join]
  | cons l ls =>
    have hne : t.Stack ≠ [] := by
      rw [hs]
      intro h0
      have := (join_eq_nil_iff (l :: ls) hb).mp h0
      simp at this
    have hpos : 0 < t.Stack.length := List.length_pos.mpr hne
    have e : join (t.Header :: l :: ls) = t.Header ++ newline :: join (l :: ls) := rfl
    rw [e, ← hs]
    simp only [displayText, hpos, if_true]

/-- C15: the display text of a record with non-empty `Stack` is `Header`, a
newline and `Stack`, and that of a record with empty `Stack` is `Header`
alone; for a record returned by `ParseThreads` it is the record's block of
input lines (the header line and the continuation lines that follow it)
joined by newlines. -/
theorem C15_display_text :
    (∀ t : Thread, t.Stack ≠ [] → displayText t = t.Header ++ newline :: t.Stack) ∧
    (∀ t : Thread, t.Stack = [] → displayText t = t.Header) ∧
    (∀ (text : Str) (ts : List Thread) (i : Nat) (t : Thread),
      ParseThreads text = .ok (ts, none) → ts[i]? = some t →
      ∃ pre rest, split text = pre ++ t.Header :: rest ∧
        pre.countP (fun l => decide (IsHeaderLine l)) = i ∧
        displayText t
          = join (t.Header :: rest.takeWhile (fun l => decide (IsContinuationLine l)))) := by
  refine ⟨?_, ?_, ?_⟩
  · intro t h
    have hpos : 0 < t.Stack.length := List.length_pos.mpr h
    simp [displayText, hpos]
  · intro t h
    simp [displayText, h]
  · intro text ts i t h ht
    obtain ⟨b, hb, hh, hs, _⟩ := forall₂_index Closes ts _ (ParseThreads_ok text ts h).1 i t ht
    obtain ⟨pre, rest, hsp, _, hcnt, hrun⟩ := headerBlocks_get (split text) i b hb
    refine ⟨pre, rest, by rw [hh]; exact hsp, hcnt, ?_⟩
    rw [← hrun]
    apply displayText_of_stack t b.2 hs
    intro l hl
    rw [hrun] at hl
    have := List.mem_takeWhile_imp hl
    simp only [decide_eq_true_eq] at this
    exact this.1

theorem C15_display_text_witness :
    (mainThread.Stack ≠ [] ∧ gcThread.Stack = [] ∧
      ParseThreads sampleDump = .ok ([mainThread, gcThread], none) ∧
      [mainThread, gcThread][0]? = some mainThread) ∧
    displayText mainThread = mainThread.Header ++ newline :: mainThread.Stack ∧
    displayText gcThread = gcThread.Header ∧
    ∃ pre rest, split sampleDump = pre ++ mainThread.Header :: rest ∧
      pre.countP (fun l => decide (IsHeaderLine l)) = 0 ∧
      displayText mainThread
        = join (mainThread.Header :: rest.takeWhile (fun l => decide (IsContinuationLine l))) :=
  ⟨⟨by decide, by decide, sampleDump_parse, rfl⟩,
    C15_display_text.1 mainThread (by decide),
    C15_display_text.2.1 gcThread (by decide),
    C15_display_text.2.2 sampleDump _ 0 mainThread sampleDump_parse rfl⟩

set_option maxRecDepth 100000 in
/-- C16: on the two-thread sample dump `ParseThreads` returns exactly two
records, `main` with the stack `  at A.b()` and `GC-thread` with an empty
stack; with a pattern matching exactly the strings that contain `main`, name
only and no inversion, exactly one record is selected, list mode prints
`"main" tid=0x1 nid=0x2 runnable`, a newline, `  at A.b()` and a newline, and
count mode prints `1`. -/
theorem C16_end_to_end_example :
    ParseThreads sampleDump
      = .ok ([⟨"\"main\" tid=0x1 nid=0x2 runnable".toList, "main".toList, "  at A.b()".toList⟩,
              ⟨"\"GC-thread\" tid=0x3 nid=0x4 waiting".toList, "GC-thread".toList, []⟩], none) ∧
    [mainThread, gcThread].filter (Selected containsMain false true) = [mainThread] ∧
    run containsMain false false true sampleDump
      = .ok ⟨"\"main\" tid=0x1 nid=0x2 runnable\n  at A.b()\n".toList, 0⟩ ∧
    run containsMain false true true sampleDump = .ok ⟨"1\n".toList, 0⟩ := by
  refine ⟨by decide, by decide, by decide, by decide⟩

/-! ## Records as lines: lemmas -/

theorem split_no_newline (s : Str) : ∀ l ∈ split s, newline ∉ l := by
  induction s with
  | nil => simp [split]
  | cons c cs ih =>
    have hne := split_ne_nil cs
    cases h : split cs with
    | nil => exact absurd h hne
    | cons m ms =>
      rw [h] at ih
      by_cases hc : c = newline
      · simp only [split, hc, if_true, h]
        intro l hl
        rcases List.mem_cons.mp hl with rfl | hl
        · simp
        · exact ih l hl
      · simp only [split, hc, if_false, h]
        intro l hl
        rcases List.mem_cons.mp hl with rfl | hl
        · have := ih m (by simp)
          simp [this, Ne.symm hc]
        · exact ih l (List.mem_cons_of_mem _ hl)

theorem split_join (ls : List Str) (hne : ls ≠ []) (h : ∀ l ∈ ls, newline ∉ l) :
    split (join ls) = ls := by
  induction ls with
  | nil => exact absurd rfl hne
  | cons l ms ih =>
    cases ms with
    | nil => simpa [join] using split_of_no_newline l (h l (by simp))
    | cons m ms =>
      have e : join (l :: m :: ms) = l ++ newline :: join (m :: ms) := rfl
      rw [e, split_append_newline, split_of_no_newline l (h l (by simp)),
        ih (by simp) (fun x hx => h x (List.mem_cons_of_mem _ hx))]
      rfl

theorem join_append (as bs : List Str) (ha : as ≠ []) (hb : bs ≠ []) :
    join (as ++ bs) = join as ++ newline :: join bs := by
  induction as with
  | nil => exact absurd rfl ha
  | cons a as ih =>
    cases as with
    | nil =>
      cases bs with
      | nil => exact absurd rfl hb
      | cons b bs => rfl
    | cons a2 as =>
      have e1 : join (a :: a2 :: as ++ bs) = a ++ newline :: join (a2 :: as ++ bs) := rfl
      have e2 : join (a :: a2 :: as) = a ++ newline :: join (a2 :: as) := rfl
      rw [e1, e2, ih (by simp)]
      simp

theorem headerBlocks_mem (ls : List Str) (b : Str × List Str) (hb : b ∈ headerBlocks ls) :
    b.1 ∈ ls ∧ IsHeaderLine b.1 ∧ ∀ l ∈ b.2, l ∈ ls ∧ IsContinuationLine l := by
  obtain ⟨i, hi⟩ := List.getElem?_of_mem hb
  obtain ⟨pre, rest, hs, hh, _, hrun⟩ := headerBlocks_get ls i b hi
  refine ⟨by rw [hs]; simp, hh, ?_⟩
  intro l hl
  rw [hrun] at hl
  have h1 := (List.takeWhile_sublist _).subset hl
  have h2 := List.mem_takeWhile_imp hl
  simp only [decide_eq_true_eq] at h2
  exact ⟨by rw [hs]; simp [h1], h2⟩

theorem finish_ok_iff (threads ts : List Thread) (blocks : List (Str × List Str)) :
    finish threads blocks = .ok (ts, none) ↔
      ∃ ts2, ts = threads ++ ts2 ∧ List.Forall₂ Parses ts2 blocks := by
  induction blocks generalizing threads with
  | nil =>
    simp only [finish, Except.ok.injEq, Prod.mk.injEq, and_true, List.forall₂_nil_right_iff]
    constructor
    · intro h; exact ⟨[], by simp [h], rfl⟩
    · rintro ⟨ts2, h, rfl⟩; simp [h]
  | cons b bs ih =>
    rcases parseThread_cases b.1 b.2 with ⟨_, hp⟩ | ⟨_, _, name, _, _, _, _, hp⟩
    · simp only [finish, hp]
      constructor
      · intro h; simp at h
      · rintro ⟨ts2, _, h2⟩
        cases h2 with
        | cons hpar _ =>
          unfold Parses at hpar
          rw [hp] at hpar
          simp at hpar
    · simp only [finish, hp, ih]
      constructor
      · rintro ⟨ts2, h, h2⟩
        refine ⟨⟨b.1, name, join b.2⟩ :: ts2, by simp [h], List.Forall₂.cons hp h2⟩
      · rintro ⟨ts2, h, h2⟩
        cases h2 with
        | cons hpar hrest =>
          unfold Parses at hpar
          rw [hp] at hpar
          simp only [Except.ok.injEq] at hpar
          subst hpar
          exact ⟨_, by simp [h], hrest⟩

theorem parses_fields (t : Thread) (b : Str × List Str) (h : Parses t b) :
    t.Header = b.1 ∧ t.Stack = join b.2 := by
  unfold Parses at h
  rcases parseThread_cases b.1 b.2 with ⟨_, hp⟩ | ⟨_, _, name, _, _, _, _, hp⟩
  · rw [hp] at h; simp at h
  · rw [hp] at h
    simp only [Except.ok.injEq] at h
    subst h
    exact ⟨rfl, rfl⟩

theorem stackLines_of_join (t : Thread) (body : List Str) (hs : t.Stack = join body)
    (hb : ∀ l ∈ body, l ≠ [] ∧ newline ∉ l) : stackLines t = body := by
  cases body with
  | nil =>
    have : t.Stack = [] := by rw [hs]; rfl
    simp [stackLines, this]
  | cons l ls =>
    have hne : t.Stack ≠ [] := by
      rw [hs]
      intro h0
      have := (join_eq_nil_iff (l :: ls) (fun x hx => (hb x hx).1)).mp h0
      simp at this
    have e := split_join (l :: ls) (by simp) (fun x hx => (hb x hx).2)
    simp only [stackLines, hne, if_false]
    rw [hs, e]

theorem wellFormed_of_parses (ls : List Str) (hls : ∀ l ∈ ls, newline ∉ l)
    (t : Thread) (b : Str × List Str) (hb : b ∈ headerBlocks ls) (hp : Parses t b) :
    WellFormed t := by
  obtain ⟨hmem, hh, hbody⟩ := headerBlocks_mem ls b hb
  obtain ⟨hhd, hst⟩ := parses_fields t b hp
  have hsl : stackLines t = b.2 :=
    stackLines_of_join t b.2 hst (fun l hl => ⟨(hbody l hl).2.1, hls l (hbody l hl).1⟩)
  refine ⟨by rw [hhd]; exact hh, by rw [hhd]; exact hls _ hmem, ?_, ?_⟩
  · intro l hl
    rw [hsl] at hl
    exact (hbody l hl).2
  · unfold recordLines
    rw [hsl, hhd]
    exact hp

theorem forall₂_mem_left {α β : Type} (R : α → β → Prop) (xs : List α) (ys : List β)
    (h : List.Forall₂ R xs ys) (x : α) (hx : x ∈ xs) : ∃ y ∈ ys, R x y := by
  obtain ⟨i, hi⟩ := List.getElem?_of_mem hx
  obtain ⟨y, hy, hr⟩ := forall₂_index R xs ys h i x hi
  exact ⟨y, List.mem_iff_getElem?.mpr ⟨i, hy⟩, hr⟩

/-- Every record of a successful run is well-formed. -/
theorem ParseThreads_wellFormed (text : Str) (ts : List Thread)
    (h : ParseThreads text = .ok (ts, none)) : ∀ t ∈ ts, WellFormed t := by
  rw [ParseThreads_eq_finish, finish_ok_iff] at h
  obtain ⟨ts2, rfl, hall⟩ := h
  intro t ht
  obtain ⟨b, hb, hp⟩ := forall₂_mem_left Parses _ _ hall t ht
  exact wellFormed_of_parses (split text) (split_no_newline text) t b hb hp

theorem stack_eq_join_stackLines (t : Thread) : t.Stack = join (stackLines t) := by
  by_cases h : t.Stack = []
  · simp [stackLines, h, join]
  · simp [stackLines, h, join_split]

theorem displayText_eq_join (t : Thread) (h : ∀ l ∈ stackLines t, IsContinuationLine l) :
    displayText t = join (recordLines t) :=
  displayText_of_stack t (stackLines t) (stack_eq_join_stackLines t) (fun l hl => (h l hl).1)

theorem join_append_empty_line (ls : List Str) (h : ls ≠ []) :
    join (ls ++ [[]]) = join ls ++ [newline] := by
  rw [join_append ls [[]] h (by simp)]
  rfl

theorem listText_eq_join (sel : List Thread) (hne : sel ≠ [])
    (h : ∀ t ∈ sel, ∀ l ∈ stackLines t, IsContinuationLine l) :
    listText sel = join (outLines sel) := by
  induction sel with
  | nil => exact absurd rfl hne
  | cons t ts ih =>
    have ht := displayText_eq_join t (h t (by simp))
    have hr : recordLines t ≠ [] := by simp [recordLines]
    cases ts with
    | nil =>
      have e : outLines [t] = recordLines t ++ [[]] := rfl
      rw [e, join_append_empty_line _ hr, ← ht]
      simp [listText, List.intercalate]
    | cons u us =>
      have ih2 := ih (by simp) (fun x hx => h x (List.mem_cons_of_mem _ hx))
      have e : outLines (t :: u :: us) = (recordLines t ++ [[]]) ++ outLines (u :: us) := by
        simp [outLines]
      have hne2 : outLines (u :: us) ≠ [] := by simp [outLines, recordLines]
      rw [listText_cons_cons, e, join_append _ _ (by simp) hne2,
        join_append_empty_line _ hr, ← ht, ih2]
      simp

theorem outLines_no_newline (sel : List Thread)
    (h : ∀ t ∈ sel, newline ∉ t.Header) : ∀ l ∈ outLines sel, newline ∉ l := by
  induction sel with
  | nil => simp [outLines]
  | cons t ts ih =>
    intro l hl
    simp only [outLines, recordLines, List.cons_append, List.mem_cons, List.mem_append] at hl
    rcases hl with rfl | hl | rfl | hl
    · exact h t (by simp)
    · unfold stackLines at hl
      by_cases hs : t.Stack = []
      · simp [hs] at hl
      · simp only [hs, if_false] at hl
        exact split_no_newline _ l hl
    · simp
    · exact ih (fun x hx => h x (List.mem_cons_of_mem _ hx)) l hl

theorem takeWhile_stop (body rest : List Str) (h : ∀ l ∈ body, IsContinuationLine l) :
    (body ++ [] :: rest).takeWhile isContinuation = body := by
  induction body with
  | nil => simp [List.takeWhile, isContinuation]
  | cons l ls ih =>
    have hl : isContinuation l = true := (isContinuation_iff l).mpr (h l (by simp))
    simp [List.takeWhile_cons, hl, ih (fun x hx => h x (List.mem_cons_of_mem _ hx))]

theorem headerBlocks_outLines (sel : List Thread) (h : ∀ t ∈ sel, WellFormed t) :
    headerBlocks (outLines sel) = sel.map (fun t => (t.Header, stackLines t)) := by
  induction sel with
  | nil => rfl
  | cons t ts ih =>
    obtain ⟨hh, _, hc, _⟩ := h t (by simp)
    have c := (isHeaderLine_iff t.Header).mp hh
    have e : outLines (t :: ts) = t.Header :: (stackLines t ++ [] :: outLines ts) := rfl
    have e0 : headerBlocks ([] :: outLines ts) = headerBlocks (outLines ts) := by
      simp [headerBlocks, hasIds]
    rw [e, headerBlocks]
    simp only [c.1, c.2, Bool.not_false, Bool.and_self, if_true, takeWhile_stop _ _ hc,
      headerBlocks_skip _ _ hc, e0, ih (fun x hx => h x (List.mem_cons_of_mem _ hx)),
      List.map_cons]

/-- The list-mode text of well-formed records parses back to the records. -/
theorem ParseThreads_listText (sel : List Thread) (h : ∀ t ∈ sel, WellFormed t) :
    ParseThreads (listText sel) = .ok (sel, none) := by
  cases hsel : sel with
  | nil => rfl
  | cons u us =>
    rw [← hsel]
    have hne : sel ≠ [] := by simp [hsel]
    rw [ParseThreads_eq_finish, listText_eq_join sel hne (fun t ht => (h t ht).2.2.1),
      split_join _ (by rw [hsel]; simp [outLines, recordLines])
        (outLines_no_newline sel (fun t ht => (h t ht).2.1)),
      headerBlocks_outLines sel h, finish_ok_iff]
    refine ⟨sel, by simp, ?_⟩
    rw [List.forall₂_map_right_iff, List.forall₂_same]
    intro t ht
    exact (h t ht).2.2.2

theorem recordLines_no_newline (t : Thread) (h : newline ∉ t.Header) :
    ∀ l ∈ recordLines t, newline ∉ l := by
  intro l hl
  have := outLines_no_newline [t] (by simpa using h) l (by simp [outLines, hl])
  exact this

theorem split_displayText (t : Thread) (h : WellFormed t) :
    split (displayText t) = recordLines t := by
  rw [displayText_eq_join t h.2.2.1]
  exact split_join _ (by simp [recordLines]) (recordLines_no_newline t h.2.1)

theorem outLines_eq_flatMap (sel : List Thread) (h : ∀ t ∈ sel, WellFormed t) :
    outLines sel = sel.flatMap (fun t => split (displayText t) ++ [[]]) := by
  induction sel with
  | nil => rfl
  | cons t ts ih =>
    have e : outLines (t :: ts) = recordLines t ++ [] :: outLines ts := rfl
    rw [e, ih (fun x hx => h x (List.mem_cons_of_mem _ hx)), List.flatMap_cons,
      split_displayText t (h t (by simp))]
    simp

theorem split_listText (sel : List Thread) (hne : sel ≠ []) (h : ∀ t ∈ sel, WellFormed t) :
    split (listText sel) = sel.flatMap (fun t => split (displayText t) ++ [[]]) := by
  have hn : outLines sel ≠ [] := by
    cases sel with
    | nil => exact absurd rfl hne
    | cons t ts => simp [outLines, recordLines]
  rw [listText_eq_join sel hne (fun t ht => (h t ht).2.2.1),
    split_join _ hn (outLines_no_newline sel (fun t ht => (h t ht).2.1)),
    outLines_eq_flatMap sel h]

theorem report_all (sel : List Thread) :
    report (fun _ => true) false false false sel = listText sel := by
  rw [report_list]
  congr 1
  rw [List.filter_eq_self]
  intro t _
  rfl

set_option maxRecDepth 100000 in
/-- C17: re-parsing the list-mode output is lossless: for a successful
`ParseThreads` and every in-order sub-sequence `sel` of its records,
`ParseThreads` on the display texts of `sel` joined by `"\n\n"` and followed
by `"\n"` succeeds and returns exactly `sel`; the same holds for what the
report loop prints for `sel`, and for the output of the run under any pattern
and flags, which parses back to the selected records. -/
theorem C17_reparse_is_lossless (text : Str) (ts sel : List Thread)
    (h : ParseThreads text = .ok (ts, none)) (hs : sel.Sublist ts) :
    ParseThreads (List.intercalate [newline, newline] (sel.map displayText) ++ [newline])
      = .ok (sel, none) ∧
    ParseThreads (report (fun _ => true) false false false sel) = .ok (sel, none) ∧
    ∀ (pattern : Str → Bool) (invert matchName : Bool),
      ParseThreads (report pattern invert false matchName ts)
        = .ok (ts.filter (fun t =>
            pattern (if matchName then t.Name else displayText t) != invert), none) := by
  have hw := ParseThreads_wellFormed text ts h
  have hsel : ∀ t ∈ sel, WellFormed t := fun t ht => hw t (hs.subset ht)
  refine ⟨?_, ?_, ?_⟩
  · cases hc : sel with
    | nil => decide
    | cons u us =>
      have e : List.intercalate [newline, newline] ((u :: us).map displayText) ++ [newline]
          = listText (u :: us) := rfl
      rw [e, ← hc]
      exact ParseThreads_listText sel hsel
  · rw [report_all]
    exact ParseThreads_listText sel hsel
  · intro pattern invert matchName
    rw [report_list]
    exact ParseThreads_listText _ (fun t ht => hw t (List.mem_filter.mp ht).1)

theorem C17_reparse_witness :
    (ParseThreads sampleDump = .ok ([mainThread, gcThread], none) ∧
      [gcThread].Sublist [mainThread, gcThread]) ∧
    ParseThreads (List.intercalate [newline, newline] ([gcThread].map displayText) ++ [newline])
      = .ok ([gcThread], none) :=
  ⟨⟨sampleDump_parse, by decide⟩,
    (C17_reparse_is_lossless sampleDump _ [gcThread] sampleDump_parse (by decide)).1⟩

/-- C18: every record returned by `ParseThreads` is well-formed: its `Header`
is non-empty, has no newline, does not begin with a space or a tab and
contains `nid=` and `tid=`; every line of a non-empty `Stack` is non-empty and
begins with a space or a tab; so no line of a display text is empty, and the
lines of the list-mode output are the lines of each selected record followed
by one empty line, the only empty lines there are. -/
theorem C18_records_are_well_formed (text : Str) (ts : List Thread)
    (h : ParseThreads text = .ok (ts, none)) :
    (∀ t ∈ ts,
      t.Header ≠ [] ∧ newline ∉ t.Header ∧
      t.Header.head? ≠ some space ∧ t.Header.head? ≠ some tab ∧
      nidTag <:+: t.Header ∧ tidTag <:+: t.Header ∧
      (t.Stack ≠ [] → ∀ l ∈ split t.Stack,
        l ≠ [] ∧ (l.head? = some space ∨ l.head? = some tab)) ∧
      (∀ l ∈ split (displayText t), l ≠ [])) ∧
    (∀ (pattern : Str → Bool) (invert matchName : Bool),
      ts.filter (fun t =>
        pattern (if matchName then t.Name else displayText t) != invert) ≠ [] →
      split (report pattern invert false matchName ts)
        = (ts.filter (fun t =>
            pattern (if matchName then t.Name else displayText t) != invert)).flatMap
          (fun t => split (displayText t) ++ [[]])) := by
  have hw := ParseThreads_wellFormed text ts h
  constructor
  · intro t ht
    have hwt := hw t ht
    obtain ⟨⟨h1, h2, h3, h4, h5⟩, hn, hc, _⟩ := hw t ht
    refine ⟨h1, hn, h2, h3, h4, h5, ?_, ?_⟩
    · intro hne l hl
      apply hc l
      simpa [stackLines, hne] using hl
    · intro l hl
      rw [split_displayText t hwt] at hl
      rcases List.mem_cons.mp hl with rfl | hl
      · exact h1
      · exact (hc l hl).1
  · intro pattern invert matchName hne
    rw [report_list]
    exact split_listText _ hne (fun t ht => hw t (List.mem_filter.mp ht).1)

set_option maxRecDepth 100000 in
theorem C18_well_formed_witness :
    (ParseThreads sampleDump = .ok ([mainThread, gcThread], none) ∧
      [mainThread, gcThread].filter (fun t =>
        containsMain (if true then t.Name else displayText t) != false) ≠ []) ∧
    split (report containsMain false false true [mainThread, gcThread])
      = ([mainThread, gcThread].filter (fun t =>
          containsMain (if true then t.Name else displayText t) != false)).flatMap
        (fun t => split (displayText t) ++ [[]]) :=
  ⟨⟨sampleDump_parse, by decide⟩,
    (C18_records_are_well_formed sampleDump _ sampleDump_parse).2 containsMain false true
      (by decide)⟩

/-! ## Composition and totality -/

theorem takeWhile_blank (ls rest : List Str) :
    (ls ++ [] :: rest).takeWhile isContinuation = ls.takeWhile isContinuation := by
  induction ls with
  | nil => simp [List.takeWhile, isContinuation]
  | cons l ls ih =>
    by_cases hl : isContinuation l = true
    · simp [List.takeWhile_cons, hl, ih]
    · simp [List.takeWhile_cons, hl]

theorem headerBlocks_blank (la lb : List Str) :
    headerBlocks (la ++ [] :: lb) = headerBlocks la ++ headerBlocks lb := by
  induction la with
  | nil => simp [headerBlocks, hasIds]
  | cons l ls ih =>
    have e : l :: ls ++ [] :: lb = l :: (ls ++ [] :: lb) := rfl
    rw [e, headerBlocks, headerBlocks, ih, takeWhile_blank]
    split_ifs <;> simp

theorem ParseThreads_ok_iff (text : Str) (ts : List Thread) :
    ParseThreads text = .ok (ts, none) ↔
      List.Forall₂ Parses ts (headerBlocks (split text)) := by
  rw [ParseThreads_eq_finish, finish_ok_iff]
  constructor
  · rintro ⟨ts2, rfl, h⟩
    simpa using h
  · intro h
    exact ⟨ts, by simp, h⟩

theorem split_blank (a b : Str) :
    split (a ++ newline :: newline :: b) = split a ++ [] :: split b := by
  rw [split_append_newline]
  simp [split]

/-- C19: segmentation composes across an empty line: `ParseThreads` succeeds
on `a`, two newlines and `b` exactly when it succeeds on `a` and on `b`, and
then its records are those of `a` followed by those of `b`. -/
theorem C19_blank_line_composition (a b : Str) :
    ((∃ ts, ParseThreads (a ++ newline :: newline :: b) = .ok (ts, none)) ↔
      (∃ ta, ParseThreads a = .ok (ta, none)) ∧ (∃ tb, ParseThreads b = .ok (tb, none))) ∧
    (∀ ta tb : List Thread,
      ParseThreads a = .ok (ta, none) → ParseThreads b = .ok (tb, none) →
      ParseThreads (a ++ newline :: newline :: b) = .ok (ta ++ tb, none)) := by
  have comp : ∀ ta tb : List Thread,
      ParseThreads a = .ok (ta, none) → ParseThreads b = .ok (tb, none) →
      ParseThreads (a ++ newline :: newline :: b) = .ok (ta ++ tb, none) := by
    intro ta tb ha hb
    rw [ParseThreads_ok_iff] at ha hb ⊢
    rw [split_blank, headerBlocks_blank]
    exact List.rel_append ha hb
  refine ⟨⟨?_, ?_⟩, comp⟩
  · rintro ⟨ts, h⟩
    rw [ParseThreads_ok_iff, split_blank, headerBlocks_blank] at h
    exact ⟨⟨_, (ParseThreads_ok_iff a _).mpr (List.forall₂_take_append ts _ _ h)⟩,
      ⟨_, (ParseThreads_ok_iff b _).mpr (List.forall₂_drop_append ts _ _ h)⟩⟩
  · rintro ⟨⟨ta, ha⟩, ⟨tb, hb⟩⟩
    exact ⟨ta ++ tb, comp ta tb ha hb⟩

theorem C19_composition_witness :
    (ParseThreads sampleDump = .ok ([mainThread, gcThread], none) ∧
      ParseThreads thread1Header = .ok ([⟨thread1Header, "Thread-1".toList, []⟩], none)) ∧
    ParseThreads (sampleDump ++ newline :: newline :: thread1Header)
      = .ok ([mainThread, gcThread] ++ [⟨thread1Header, "Thread-1".toList, []⟩], none) :=
  ⟨⟨sampleDump_parse, thread1Header_parse⟩,
    (C19_blank_line_composition sampleDump thread1Header).2 _ _ sampleDump_parse
      thread1Header_parse⟩

theorem finish_no_panic (threads : List Thread) (blocks : List (Str × List Str)) :
    (∃ ts, finish threads blocks = .ok (ts, none)) ∨
      finish threads blocks = .ok ([], some noThreadName) := by
  rcases finish_spec threads blocks with ⟨ts, h, _, _⟩ | ⟨h, _⟩
  · exact Or.inl ⟨_, h⟩
  · exact Or.inr h

theorem parseLoop_no_panic (ls : List Str) (threads : List Thread) (thread : List Str) :
    (∃ ts, parseLoop ls threads thread = .ok (ts, none)) ∨
      parseLoop ls threads thread = .ok ([], some noThreadName) := by
  cases thread with
  | nil =>
    rw [(parseLoop_open ls threads [] []).2]
    exact finish_no_panic _ _
  | cons h body =>
    rw [(parseLoop_open ls threads h body).1]
    exact finish_no_panic _ _

/-- C20: `ParseThreads` returns on every input, without panic: the loop ends
with records or with the error `no thread name found`, from any state of the
accumulator; `parseThread` would panic on an empty line list only, and on a
non-empty one it returns a record or the error; and whenever the quote check
passes, `0 ≤ startName+1 ≤ endName ≤ len(header)`, so the slice is in range. -/
theorem C20_total_and_panic_free :
    (∀ text : Str, (∃ ts, ParseThreads text = .ok (ts, none)) ∨
      ParseThreads text = .ok ([], some noThreadName)) ∧
    (∀ (ls : List Str) (threads : List Thread) (thread : List Str),
      (∃ ts, parseLoop ls threads thread = .ok (ts, none)) ∨
        parseLoop ls threads thread = .ok ([], some noThreadName)) ∧
    parseThread [] = .error .indexOutOfRange ∧
    (∀ (header : Str) (rest : List Str),
      (∃ t, parseThread (header :: rest) = .ok (.ok t)) ∨
        parseThread (header :: rest) = .ok (.error noThreadName)) ∧
    (∀ header : Str,
      ¬ (indexByte header dquote < 0 ∨ lastIndexByte header dquote ≤ indexByte header dquote) →
      0 ≤ indexByte header dquote + 1 ∧
      indexByte header dquote + 1 ≤ lastIndexByte header dquote ∧
      lastIndexByte header dquote ≤ (header.length : Int) ∧
      ∃ name, slice header (indexByte header dquote + 1) (lastIndexByte header dquote)
        = .ok name) := by
  refine ⟨fun text => parseLoop_no_panic _ _ _, parseLoop_no_panic, rfl, ?_, ?_⟩
  · intro header rest
    rcases parseThread_cases header rest with ⟨_, hp⟩ | ⟨_, _, name, _, _, _, _, hp⟩
    · exact Or.inr hp
    · exact Or.inl ⟨_, hp⟩
  · intro header hc
    rcases first_last_cases header dquote with ⟨_, hi, _⟩ | ⟨_, hil, _⟩ |
      ⟨pre, mid, post, hs, _, _, hi, hl⟩
    · exact absurd (Or.inl (by rw [hi]; decide)) hc
    · exact absurd (Or.inr (by rw [hil])) hc
    · have hlen : (header.length : Int)
          = (pre.length : Int) + 1 + (mid.length : Int) + 1 + (post.length : Int) := by
        rw [hs]
        simp only [List.length_append, List.length_cons]
        push_cast
        ring
      refine ⟨by rw [hi]; omega, by rw [hi, hl]; omega, by rw [hl, hlen]; omega, mid, ?_⟩
      rw [hi, hl]
      conv_lhs => rw [hs]
      exact slice_middle pre mid post dquote

set_option maxRecDepth 100000 in
theorem C20_total_witness :
    ¬ (indexByte thread1Header dquote < 0 ∨
      lastIndexByte thread1Header dquote ≤ indexByte thread1Header dquote) ∧
    (0 ≤ indexByte thread1Header dquote + 1 ∧
      indexByte thread1Header dquote + 1 ≤ lastIndexByte thread1Header dquote ∧
      lastIndexByte thread1Header dquote ≤ (thread1Header.length : Int) ∧
      ∃ name, slice thread1Header (indexByte thread1Header dquote + 1)
        (lastIndexByte thread1Header dquote) = .ok name) :=
  ⟨by decide, C20_total_and_panic_free.2.2.2.2 thread1Header (by decide)⟩

end GrepStackdump
